import Mathlib

/-!
Verification of the nested-context compositor of ImNodeFlow
(ContainedContext / AppendDrawData / CopyIOEvents).

The C++ source is shallowly embedded:
  * floats become rationals,
  * ImVector buffers become lists,
  * the `IM_ASSERT` fatal checks become `Option` (`none` = assertion fired),
  * the global ImGui context queries performed inside `ContainedContext::end`
    (hover state, mouse wheel, mouse position, key state) become explicit
    per-frame inputs.
-/

set_option maxHeartbeats 1000000

/-- Models `ImVec2`, a 2-component vector (float components become ℚ). -/
structure ImVec2 where
  x : ℚ
  y : ℚ
deriving DecidableEq, Repr

instance : Add ImVec2 := ⟨fun a b => ⟨a.x + b.x, a.y + b.y⟩⟩
instance : Sub ImVec2 := ⟨fun a b => ⟨a.x - b.x, a.y - b.y⟩⟩
instance : HMul ImVec2 ℚ ImVec2 := ⟨fun a s => ⟨a.x * s, a.y * s⟩⟩
instance : HDiv ImVec2 ℚ ImVec2 := ⟨fun a s => ⟨a.x / s, a.y / s⟩⟩

theorem ImVec2_add_def (a b : ImVec2) : a + b = ⟨a.x + b.x, a.y + b.y⟩ := rfl

theorem ImVec2_sub_def (a b : ImVec2) : a - b = ⟨a.x - b.x, a.y - b.y⟩ := rfl

theorem ImVec2_mul_def (a : ImVec2) (s : ℚ) : a * s = ⟨a.x * s, a.y * s⟩ := rfl

theorem ImVec2_div_def (a : ImVec2) (s : ℚ) : a / s = ⟨a.x / s, a.y / s⟩ := rfl

/-- Models `ImVec4`, a 4-component vector (used for clip rectangles). -/
structure ImVec4 where
  x : ℚ
  y : ℚ
  z : ℚ
  w : ℚ
deriving DecidableEq, Repr

/-- Models `ImDrawVert`: position, texture coordinate, packed color. -/
structure ImDrawVert where
  pos : ImVec2
  uv : ImVec2
  col : Nat
deriving DecidableEq, Repr

/-- Models `ImDrawCmd` (the fields AppendDrawData touches). -/
structure ImDrawCmd where
  ClipRect : ImVec4
  VtxOffset : Nat
  IdxOffset : Nat
  ElemCount : Nat
deriving DecidableEq, Repr

/-- Models `ImDrawList` (the fields AppendDrawData touches).  Index values are
naturals; the write cursors `_VtxWritePtr` / `_IdxWritePtr` always point at the
buffer ends and are therefore implicit in the list lengths. -/
structure ImDrawList where
  VtxBuffer : List ImDrawVert
  IdxBuffer : List Nat
  CmdBuffer : List ImDrawCmd
  VtxCurrentIdx : Nat
deriving DecidableEq, Repr

/-- The vertex transform of AppendDrawData: `dst.pos = src.pos * scale + origin`,
uv and color copied unchanged (source lines 72-76). -/
def transformVert (origin : ImVec2) (scale : ℚ) (v : ImDrawVert) : ImDrawVert :=
  { pos := v.pos * scale + origin, uv := v.uv, col := v.col }

/-- The clip-rectangle transform of AppendDrawData (each corner scaled then
translated, x/z by origin.x and y/w by origin.y). -/
def transformClip (origin : ImVec2) (scale : ℚ) (r : ImVec4) : ImVec4 :=
  { x := r.x * scale + origin.x
    y := r.y * scale + origin.y
    z := r.z * scale + origin.x
    w := r.w * scale + origin.y }

/-- Models `UINT_MAX`, the initial value of the segment-scan cache key. -/
def UINT_MAX : Nat := 4294967295

/-- The forward scan for the next segment boundary: first later command whose
`VtxOffset` exceeds `cur`, defaulting to the total vertex count. -/
def nextVtxOffset (cur totalV : Nat) : List ImDrawCmd → Nat
  | [] => totalV
  | c :: rest => if cur < c.VtxOffset then c.VtxOffset else nextVtxOffset cur totalV rest

/-- The command loop of the vertex-offset-capable branch of AppendDrawData.
Produces, for each source command, the transformed command that is pushed onto
the destination command buffer, paired with the value assigned to
`_VtxCurrentIdx` while processing that command (the segment vertex count,
memoised per distinct `VtxOffset` through `cachedOff`/`cachedCnt`). -/
def capableLoop (origin : ImVec2) (scale : ℚ) (totalV vtx_start idx_start : Nat)
    (cachedOff cachedCnt : Nat) : List ImDrawCmd → List (ImDrawCmd × Nat)
  | [] => []
  | cmd :: rest =>
    let p : Nat × Nat :=
      if cmd.VtxOffset ≠ cachedOff then
        (cmd.VtxOffset, nextVtxOffset cmd.VtxOffset totalV rest - cmd.VtxOffset)
      else
        (cachedOff, cachedCnt)
    ({ ClipRect := transformClip origin scale cmd.ClipRect
       VtxOffset := cmd.VtxOffset + vtx_start
       IdxOffset := cmd.IdxOffset + idx_start
       ElemCount := cmd.ElemCount }, p.2)
      :: capableLoop origin scale totalV vtx_start idx_start p.1 p.2 rest

/-- Overwrite `l` starting at position `pos` with the values `vals` (the
per-command index bake of the legacy branch writes through
`dst_idx_base + cmd.IdxOffset`).  Writes falling outside `l` are dropped. -/
def listWrite : List Nat → Nat → List Nat → List Nat
  | l, _, [] => l
  | [], _, _ => []
  | _ :: xs, 0, v :: vs => v :: listWrite xs 0 vs
  | x :: xs, p + 1, vs => x :: listWrite xs p vs

/-- The command loop of the legacy (no vertex offset) branch of AppendDrawData.
`none` models an `IM_ASSERT` firing (non-zero `VtxOffset`, or baked indices out
of the `ImDrawIdx` range on a narrow index type).  `acc` is the freshly
appended destination index region (length = source index count); baked values
are reduced mod `2^(8*idxBytes)`, modelling the `static_cast<ImDrawIdx>`. -/
def legacyLoop (origin : ImVec2) (scale : ℚ) (idxBytes vtx_start idx_start totalV : Nat)
    (srcIdx : List Nat) : List ImDrawCmd → List Nat → Option (List ImDrawCmd × List Nat)
  | [], acc => some ([], acc)
  | cmd :: rest, acc =>
    if cmd.VtxOffset ≠ 0 then none
    else
      let base := vtx_start + cmd.VtxOffset
      if 4 ≤ idxBytes ∨ base + totalV - 1 ≤ 2 ^ (8 * idxBytes) - 1 then
        let baked := ((srcIdx.drop cmd.IdxOffset).take cmd.ElemCount).map
          (fun i => (i + base) % 2 ^ (8 * idxBytes))
        match legacyLoop origin scale idxBytes vtx_start idx_start totalV srcIdx rest
            (listWrite acc cmd.IdxOffset baked) with
        | none => none
        | some (cmds, fin) =>
          some ({ ClipRect := transformClip origin scale cmd.ClipRect
                  VtxOffset := 0
                  IdxOffset := cmd.IdxOffset + idx_start
                  ElemCount := cmd.ElemCount } :: cmds, fin)
      else none

/-- Models `AppendDrawData(src, origin, scale)` from the source, as a function of the
destination list `dl` (the outer window draw list), the outer backend's
`RendererHasVtxOffset` flag, and the byte width of `ImDrawIdx`.
`none` models a fatal `IM_ASSERT`. -/
def AppendDrawData (hasVtxOffset : Bool) (idxBytes : Nat) (dl src : ImDrawList)
    (origin : ImVec2) (scale : ℚ) : Option ImDrawList :=
  if src.VtxBuffer = [] ∨ src.CmdBuffer = [] then some dl
  else
    let vtx_start := dl.VtxBuffer.length
    let idx_start := dl.IdxBuffer.length
    let newVtx := dl.VtxBuffer ++ src.VtxBuffer.map (transformVert origin scale)
    if hasVtxOffset then
      let trace := capableLoop origin scale src.VtxBuffer.length vtx_start idx_start
        UINT_MAX 0 src.CmdBuffer
      some { VtxBuffer := newVtx
             IdxBuffer := dl.IdxBuffer ++ src.IdxBuffer
             CmdBuffer := dl.CmdBuffer ++ trace.map Prod.fst
             VtxCurrentIdx := (trace.map Prod.snd).getLastD dl.VtxCurrentIdx }
    else
      match legacyLoop origin scale idxBytes vtx_start idx_start src.VtxBuffer.length
          src.IdxBuffer src.CmdBuffer (List.replicate src.IdxBuffer.length 0) with
      | none => none
      | some (cmds, region) =>
        some { VtxBuffer := newVtx
               IdxBuffer := dl.IdxBuffer ++ region
               CmdBuffer := dl.CmdBuffer ++ cmds
               VtxCurrentIdx := vtx_start + src.VtxBuffer.length }

/-- Well-formedness of a source draw list, as guaranteed by ImGui for the
lists handed to AppendDrawData: every command's index run lies inside the
index buffer, and every index, resolved against its command's `VtxOffset`,
addresses a vertex of the source vertex buffer. -/
def ValidSrc (src : ImDrawList) : Prop :=
  ∀ cmd ∈ src.CmdBuffer,
    cmd.IdxOffset + cmd.ElemCount ≤ src.IdxBuffer.length ∧
    ∀ k < cmd.ElemCount,
      cmd.VtxOffset + src.IdxBuffer.getD (cmd.IdxOffset + k) 0 < src.VtxBuffer.length

instance (src : ImDrawList) : Decidable (ValidSrc src) := by
  unfold ValidSrc
  infer_instance

/-- Segment vertex count of a command with base offset `off`, given the
commands after it: distance from `off` to the next higher base offset
(or to the end of the vertex buffer). -/
def segVtxCount (off totalV : Nat) (rest : List ImDrawCmd) : Nat :=
  nextVtxOffset off totalV rest - off

/-- For each command of a list, the vertex count of its segment (the run of
source vertices sharing its base offset), computed without the cache: the
specification value that `_VtxCurrentIdx` is set to per command. -/
def segTrace (totalV : Nat) : List ImDrawCmd → List Nat
  | [] => []
  | c :: rest => segVtxCount c.VtxOffset totalV rest :: segTrace totalV rest

/-- The command fix-up applied by the capable branch: clip rectangle
transformed, vertex-segment offset and index offset shifted by the
destination's pre-append counts. -/
def capableFixup (origin : ImVec2) (scale : ℚ) (vtx_start idx_start : Nat)
    (cmd : ImDrawCmd) : ImDrawCmd :=
  { ClipRect := transformClip origin scale cmd.ClipRect
    VtxOffset := cmd.VtxOffset + vtx_start
    IdxOffset := cmd.IdxOffset + idx_start
    ElemCount := cmd.ElemCount }

/-- The command fix-up applied by the legacy branch: clip rectangle
transformed, vertex offset forced to zero, index offset shifted by the
destination's pre-append index count. -/
def legacyFixup (origin : ImVec2) (scale : ℚ) (idx_start : Nat)
    (cmd : ImDrawCmd) : ImDrawCmd :=
  { ClipRect := transformClip origin scale cmd.ClipRect
    VtxOffset := 0
    IdxOffset := cmd.IdxOffset + idx_start
    ElemCount := cmd.ElemCount }

/-! ## Input events and contexts (`CopyIOEvents`) -/

/-- Models `ImGuiInputEventType` (the tag of the event union). -/
inductive ImGuiInputEventType
  | MousePos
  | MouseWheel
  | MouseButton
  | Key
  | Text
  | Focus
deriving DecidableEq, Repr

/-- Models `ImGuiInputEvent`: the type tag (`EvType` stands for the C++ field
`Type`, a reserved word here), the mouse-position payload as explicit fields,
and the remaining payload bytes collapsed into `payload` (they are never
touched by this code). -/
structure ImGuiInputEvent where
  EvType : ImGuiInputEventType
  Source : Nat
  EventId : Nat
  MousePosX : ℚ
  MousePosY : ℚ
  MouseSource : Nat
  payload : Nat
  AddedByTestEngine : Bool
deriving DecidableEq, Repr

/-- The per-event body of the `CopyIOEvents` loop: pointer-position events are
remapped into inner space, all other kinds are left untouched. -/
def RemapEvent (origin : ImVec2) (scale : ℚ) (e : ImGuiInputEvent) : ImGuiInputEvent :=
  if e.EvType = ImGuiInputEventType.MousePos then
    { e with
        MousePosX := (e.MousePosX - origin.x) / scale
        MousePosY := (e.MousePosY - origin.y) / scale }
  else e

/-- Models the fields of `ImGuiIO` this code reads or writes. -/
structure ImGuiIOState where
  DeltaTime : ℚ
  MouseDelta : ImVec2
  MousePos : ImVec2
deriving DecidableEq, Repr

/-- Models `ImGuiContext` (the fields this code touches): the IO block
(`ioState` stands for the C++ field `IO`), the pending input queue, the
already-processed input trail, and the platform IME block (opaque). -/
structure ImGuiContextM where
  ioState : ImGuiIOState
  InputEventsQueue : List ImGuiInputEvent
  InputEventsTrail : List ImGuiInputEvent
  PlatformImeData : Nat
deriving DecidableEq, Repr

/-- Models `CopyIOEvents(src, dst, origin, scale)` from the source: copies the IME
block and delta-time, replaces the inner pending queue with the outer
already-processed trail, remapping pointer positions.  Returned as the pair
(source context after the call, destination context after the call); the
function only ever assigns into `dst`. -/
def CopyIOEvents (src dst : ImGuiContextM) (origin : ImVec2) (scale : ℚ) :
    ImGuiContextM × ImGuiContextM :=
  (src,
   { dst with
       PlatformImeData := src.PlatformImeData
       ioState := { dst.ioState with DeltaTime := src.ioState.DeltaTime }
       InputEventsQueue := src.InputEventsTrail.map (RemapEvent origin scale) })

/-! ## ContainedContext -/

/-- Models `ContainedContextConfig` (floats as ℚ, key/button ids as Nat). -/
structure ContainedContextConfig where
  extra_window_wrapper : Bool := false
  size : ImVec2 := ⟨0, 0⟩
  color : Nat := 4294967295
  zoom_enabled : Bool := true
  zoom_min : ℚ := 3 / 10
  zoom_max : ℚ := 2
  zoom_divisions : ℚ := 10
  zoom_smoothness : ℚ := 5
  default_zoom : ℚ := 1
  reset_zoom_key : Nat := 17
  scroll_button : Nat := 2
deriving DecidableEq, Repr

/-- Models the state of `ContainedContext`.  `m_original_ctx` is an
`Option`: `none` models the null pointer. -/
structure ContainedContext where
  m_config : ContainedContextConfig
  m_origin : ImVec2
  m_pos : ImVec2
  m_size : ImVec2
  m_ctx : ImGuiContextM
  m_original_ctx : Option ImGuiContextM
  m_anyWindowHovered : Bool
  m_anyItemActive : Bool
  m_hovered : Bool
  m_scale : ℚ
  m_scaleTarget : ℚ
  m_scroll : ImVec2
deriving DecidableEq, Repr

/-- Accessor `scale()`. -/
def ContainedContext.scale (c : ContainedContext) : ℚ := c.m_scale

/-- Models `getScreenDelta()`: reads `m_original_ctx->IO.MouseDelta` and divides by
`scale()`.  The read through the saved outer-context pointer is modelled by
`Option.map`: a `none` result is the null-pointer dereference. -/
def ContainedContext.getScreenDelta (c : ContainedContext) : Option ImVec2 :=
  c.m_original_ctx.map (fun ctx => ctx.ioState.MouseDelta / c.m_scale)

/-- The part of `begin()` that saves the ambient outer context
(`m_original_ctx = ImGui::GetCurrentContext()`, line 250). -/
def ContainedContext.beginSaveCtx (c : ContainedContext) (outer : ImGuiContextM) :
    ContainedContext :=
  { c with m_original_ctx := some outer }

/-- The zoom/pan state triple mutated by the control loop in `end()`. -/
structure ZoomState where
  scale : ℚ
  scaleTarget : ℚ
  scroll : ImVec2
deriving DecidableEq, Repr

/-- The wheel block of `end()` (source lines 324-335): adjust the target by
`wheel / divisions`, clamp to `[zoom_min, zoom_max]`, and if smoothness is
zero snap the scale and apply the anchor-preserving scroll correction. -/
def zoomWheelStep (cfg : ContainedContextConfig) (m_pos mousePos : ImVec2)
    (wheel : ℚ) (st : ZoomState) : ZoomState :=
  let t0 := st.scaleTarget + wheel / cfg.zoom_divisions
  let t1 := if t0 < cfg.zoom_min then cfg.zoom_min else t0
  let t := if cfg.zoom_max < t1 then cfg.zoom_max else t1
  if cfg.zoom_smoothness = 0 then
    { scale := t
      scaleTarget := t
      scroll := st.scroll + (mousePos - m_pos) / t - (mousePos - m_pos) / st.scale }
  else
    { st with scaleTarget := t }

/-- The smoothing block of `end()` (source lines 338-350): if smoothness is
positive and the remaining gap is at least `0.015 / smoothness`, step the
scale by `gap / smoothness` with an incremental anchor correction, then snap
exactly (with one final correction) once the remaining gap drops below the
threshold. -/
def zoomSmoothStep (cfg : ContainedContextConfig) (m_pos mousePos : ImVec2)
    (st : ZoomState) : ZoomState :=
  if 0 < cfg.zoom_smoothness ∧
      15 / 1000 / cfg.zoom_smoothness ≤ |st.scaleTarget - st.scale| then
    let cs := (st.scaleTarget - st.scale) / cfg.zoom_smoothness
    let scroll1 := st.scroll + (mousePos - m_pos) / (st.scale + cs)
      - (mousePos - m_pos) / st.scale
    let scale1 := st.scale + cs
    if |st.scaleTarget - scale1| < 15 / 1000 / cfg.zoom_smoothness then
      { scale := st.scaleTarget
        scaleTarget := st.scaleTarget
        scroll := scroll1 + (mousePos - m_pos) / st.scaleTarget
          - (mousePos - m_pos) / scale1 }
    else
      { scale := scale1, scaleTarget := st.scaleTarget, scroll := scroll1 }
  else st

/-- The zoom-reset block of `end()` (source lines 353-354). -/
def zoomResetStep (cfg : ContainedContextConfig) (pressed : Bool)
    (st : ZoomState) : ZoomState :=
  if pressed then { st with scaleTarget := cfg.default_zoom } else st

/-- The drag-scroll block of `end()` (source lines 357-360). -/
def dragScrollStep (doDrag : Bool) (mouseDelta : ImVec2) (st : ZoomState) : ZoomState :=
  if doDrag then { st with scroll := st.scroll + mouseDelta / st.scale } else st

/-- Results of the ambient ImGui queries performed during one `end()` call:
the hover queries, item-active query, wheel and mouse readings, the
reset-key and drag queries. -/
structure EndInputs where
  isWindowHoveredAnyWindow : Bool
  isWindowHovered : Bool
  isAnyItemActive : Bool
  isWindowHoveredChildWindows : Bool
  mouseWheel : ℚ
  mousePos : ImVec2
  isResetKeyPressed : Bool
  isMouseDragging : Bool
  mouseDelta : ImVec2
deriving DecidableEq, Repr

/-- The zoom/pan control loop of `end()` in order: wheel block (gated on
zooming enabled, viewport hovered, non-zero wheel), smoothing block,
zoom-reset block, drag-scroll block. -/
def endZoomState (cfg : ContainedContextConfig) (m_pos : ImVec2) (hovered : Bool)
    (inp : EndInputs) (st0 : ZoomState) : ZoomState :=
  let st1 :=
    if cfg.zoom_enabled && hovered && decide (inp.mouseWheel ≠ 0) then
      zoomWheelStep cfg m_pos inp.mousePos inp.mouseWheel st0
    else st0
  let st2 := zoomSmoothStep cfg m_pos inp.mousePos st1
  let st3 := zoomResetStep cfg inp.isResetKeyPressed st2
  dragScrollStep (hovered && !inp.isAnyItemActive && inp.isMouseDragging)
    inp.mouseDelta st3

/-- The state effect of `ContainedContext::end()` on the session object
(source lines 288-367): hover bookkeeping, clearing of the saved outer
context pointer, the zoom/pan control loop, and the write of the remapped
mouse position into the inner context for the next frame.  The draw-data
merge it also performs acts on the outer draw list and is modelled
separately by `AppendDrawData`. -/
def ContainedContext.end (c : ContainedContext) (inp : EndInputs) : ContainedContext :=
  let anyWindowHovered :=
    if c.m_config.extra_window_wrapper && inp.isWindowHovered then false
    else inp.isWindowHoveredAnyWindow
  let hovered := inp.isWindowHoveredChildWindows && !anyWindowHovered
  let st4 := endZoomState c.m_config c.m_pos hovered inp
    { scale := c.m_scale, scaleTarget := c.m_scaleTarget, scroll := c.m_scroll }
  { c with
      m_anyWindowHovered := anyWindowHovered
      m_anyItemActive := inp.isAnyItemActive
      m_original_ctx := none
      m_hovered := hovered
      m_scale := st4.scale
      m_scaleTarget := st4.scaleTarget
      m_scroll := st4.scroll
      m_ctx := { c.m_ctx with
        ioState := { c.m_ctx.ioState with
          MousePos := (inp.mousePos - c.m_origin) / st4.scale } } }

/-! ## Helper lemmas about the compositor loops -/

theorem listWrite_length (l : List Nat) (p : Nat) (vals : List Nat) :
    (listWrite l p vals).length = l.length := by
  induction l generalizing p vals with
  | nil => cases vals <;> simp [listWrite]
  | cons x xs ih =>
    cases vals with
    | nil => simp [listWrite]
    | cons v vs =>
      cases p with
      | zero => simp [listWrite, ih]
      | succ p => simp [listWrite, ih]

theorem listWrite_getD (l vals : List Nat) (p j : Nat) :
    (listWrite l p vals).getD j 0 =
      if p ≤ j ∧ j < p + vals.length ∧ j < l.length then vals.getD (j - p) 0
      else l.getD j 0 := by
  induction l generalizing p j vals with
  | nil =>
    cases vals <;> simp [listWrite]
  | cons x xs ih =>
    cases vals with
    | nil =>
      rw [if_neg (by rintro ⟨a, b, _⟩; simp at b; omega)]
      simp [listWrite]
    | cons v vs =>
      cases p with
      | zero =>
        cases j with
        | zero => simp [listWrite]
        | succ j =>
          simp only [listWrite, List.getD_cons_succ, List.length_cons]
          rw [ih]
          split_ifs with h1 h2 h3
          · simp
          · exfalso; simp only [List.length_cons] at *; omega
          · exfalso; simp only [List.length_cons] at *; omega
          · rfl
      | succ p =>
        cases j with
        | zero =>
          rw [if_neg (by omega)]
          simp [listWrite]
        | succ j =>
          simp only [listWrite, List.getD_cons_succ, List.length_cons]
          rw [ih]
          split_ifs with h1 h2 h3
          · simp [Nat.succ_sub_succ]
          · exfalso; simp only [List.length_cons] at *; omega
          · exfalso; simp only [List.length_cons] at *; omega
          · rfl

theorem baked_getD (srcIdx : List Nat) (off cnt base M i : Nat)
    (hi : i < cnt) (hlen : off + i < srcIdx.length) :
    (((srcIdx.drop off).take cnt).map (fun v => (v + base) % M)).getD i 0
      = (srcIdx.getD (off + i) 0 + base) % M := by
  have h1 : i < ((srcIdx.drop off).take cnt).length := by
    simp [List.length_take, List.length_drop]
    omega
  have h2 : i < (((srcIdx.drop off).take cnt).map (fun v => (v + base) % M)).length := by
    simpa using h1
  rw [List.getD_eq_getElem _ _ h2, List.getElem_map, List.getElem_take,
    List.getElem_drop, List.getD_eq_getElem _ _ hlen]

theorem nextVtxOffset_cons_le (cur totalV : Nat) (c : ImDrawCmd) (rest : List ImDrawCmd)
    (h : c.VtxOffset ≤ cur) :
    nextVtxOffset cur totalV (c :: rest) = nextVtxOffset cur totalV rest := by
  simp [nextVtxOffset, Nat.not_lt.mpr h]

theorem capableLoop_map_fst (origin : ImVec2) (scale : ℚ)
    (totalV vtx_start idx_start : Nat) (cmds : List ImDrawCmd) (co cc : Nat) :
    (capableLoop origin scale totalV vtx_start idx_start co cc cmds).map Prod.fst =
      cmds.map (capableFixup origin scale vtx_start idx_start) := by
  induction cmds generalizing co cc with
  | nil => simp [capableLoop]
  | cons c rest ih => simp [capableLoop, capableFixup, ih]

theorem capableLoop_map_snd (origin : ImVec2) (scale : ℚ)
    (totalV vtx_start idx_start : Nat) (cmds : List ImDrawCmd) (co cc : Nat)
    (hinv : cc = segVtxCount co totalV cmds ∨ ∀ c ∈ cmds, c.VtxOffset ≠ co) :
    (capableLoop origin scale totalV vtx_start idx_start co cc cmds).map Prod.snd =
      segTrace totalV cmds := by
  induction cmds generalizing co cc with
  | nil => simp [capableLoop, segTrace]
  | cons c rest ih =>
    by_cases h : c.VtxOffset = co
    · have hcc : cc = segVtxCount co totalV (c :: rest) := by
        rcases hinv with h1 | h2
        · exact h1
        · exact absurd h (h2 c (List.mem_cons_self c rest))
      have hskip : segVtxCount co totalV (c :: rest) = segVtxCount co totalV rest := by
        unfold segVtxCount
        rw [nextVtxOffset_cons_le _ _ _ _ (le_of_eq h)]
      have hcc' : cc = segVtxCount c.VtxOffset totalV rest := by
        rw [h, hcc, hskip]
      simp only [capableLoop, if_neg (not_not_intro h), List.map_cons, segTrace]
      rw [ih co cc (Or.inl (hcc.trans hskip)), hcc']
    · simp only [capableLoop, if_pos h, List.map_cons, segTrace]
      rw [ih c.VtxOffset (nextVtxOffset c.VtxOffset totalV rest - c.VtxOffset) (Or.inl rfl)]
      rfl

theorem legacyLoop_some_spec (origin : ImVec2) (scale : ℚ)
    (idxBytes vtx_start idx_start totalV : Nat) (srcIdx : List Nat)
    (cmds : List ImDrawCmd) (acc : List Nat) (out : List ImDrawCmd) (fin : List Nat)
    (h : legacyLoop origin scale idxBytes vtx_start idx_start totalV srcIdx cmds acc
      = some (out, fin)) :
    out = cmds.map (legacyFixup origin scale idx_start) ∧
    (∀ c ∈ cmds, c.VtxOffset = 0) ∧
    fin.length = acc.length ∧
    (cmds ≠ [] → 4 ≤ idxBytes ∨ vtx_start + totalV - 1 ≤ 2 ^ (8 * idxBytes) - 1) := by
  induction cmds generalizing acc out fin with
  | nil =>
    simp only [legacyLoop, Option.some.injEq, Prod.mk.injEq] at h
    simp [← h.1, ← h.2]
  | cons c rest ih =>
    simp only [legacyLoop] at h
    by_cases hoff : c.VtxOffset = 0
    · rw [if_neg (not_not_intro hoff)] at h
      by_cases hguard : 4 ≤ idxBytes ∨
          vtx_start + c.VtxOffset + totalV - 1 ≤ 2 ^ (8 * idxBytes) - 1
      · rw [if_pos hguard] at h
        cases hrec : legacyLoop origin scale idxBytes vtx_start idx_start totalV srcIdx rest
            (listWrite acc c.IdxOffset
              (((srcIdx.drop c.IdxOffset).take c.ElemCount).map
                (fun i => (i + (vtx_start + c.VtxOffset)) % 2 ^ (8 * idxBytes)))) with
        | none => rw [hrec] at h; exact absurd h (by simp)
        | some p =>
          rw [hrec] at h
          obtain ⟨cmds', fin'⟩ := p
          simp only [Option.some.injEq, Prod.mk.injEq] at h
          obtain ⟨ho, hf⟩ := h
          obtain ⟨ih1, ih2, ih3, _⟩ := ih _ _ _ hrec
          refine ⟨?_, ?_, ?_, ?_⟩
          · rw [← ho, ih1, List.map_cons, legacyFixup]
          · intro d hd
            rcases List.mem_cons.mp hd with hd | hd
            · rw [hd]; exact hoff
            · exact ih2 d hd
          · rw [← hf, ih3, listWrite_length]
          · intro _
            rcases hguard with hg | hg
            · exact Or.inl hg
            · exact Or.inr (by rw [hoff] at hg; simpa using hg)
      · rw [if_neg hguard] at h
        exact absurd h (by simp)
    · rw [if_pos hoff] at h
      exact absurd h (by simp)

theorem legacyLoop_getD_or (origin : ImVec2) (scale : ℚ)
    (idxBytes vtx_start idx_start totalV : Nat) (srcIdx : List Nat)
    (cmds : List ImDrawCmd) (acc : List Nat) (out : List ImDrawCmd) (fin : List Nat)
    (h : legacyLoop origin scale idxBytes vtx_start idx_start totalV srcIdx cmds acc
      = some (out, fin)) (j : Nat) :
    fin.getD j 0 = acc.getD j 0 ∨
    fin.getD j 0 = (srcIdx.getD j 0 + vtx_start) % 2 ^ (8 * idxBytes) := by
  induction cmds generalizing acc out fin with
  | nil =>
    simp only [legacyLoop, Option.some.injEq, Prod.mk.injEq] at h
    rw [← h.2]
    exact Or.inl rfl
  | cons c rest ih =>
    simp only [legacyLoop] at h
    by_cases hoff : c.VtxOffset = 0
    · rw [if_neg (not_not_intro hoff)] at h
      by_cases hguard : 4 ≤ idxBytes ∨
          vtx_start + c.VtxOffset + totalV - 1 ≤ 2 ^ (8 * idxBytes) - 1
      · rw [if_pos hguard] at h
        cases hrec : legacyLoop origin scale idxBytes vtx_start idx_start totalV srcIdx rest
            (listWrite acc c.IdxOffset
              (((srcIdx.drop c.IdxOffset).take c.ElemCount).map
                (fun i => (i + (vtx_start + c.VtxOffset)) % 2 ^ (8 * idxBytes)))) with
        | none => rw [hrec] at h; exact absurd h (by simp)
        | some p =>
          rw [hrec] at h
          obtain ⟨cmds', fin'⟩ := p
          simp only [Option.some.injEq, Prod.mk.injEq] at h
          rw [← h.2]
          rcases ih _ _ _ hrec with hv | hv
          · rw [hv, listWrite_getD]
            split_ifs with hc
            · right
              rw [baked_getD srcIdx c.IdxOffset c.ElemCount _ _ _
                  (by simp only [List.length_map, List.length_take, List.length_drop] at hc
                      omega)
                  (by simp only [List.length_map, List.length_take, List.length_drop] at hc
                      omega)]
              rw [Nat.add_sub_cancel' hc.1, hoff, Nat.add_zero]
            · exact Or.inl rfl
          · exact Or.inr hv
      · rw [if_neg hguard] at h
        exact absurd h (by simp)
    · rw [if_pos hoff] at h
      exact absurd h (by simp)

theorem legacyLoop_covered (origin : ImVec2) (scale : ℚ)
    (idxBytes vtx_start idx_start totalV : Nat) (srcIdx : List Nat)
    (cmds : List ImDrawCmd) (acc : List Nat) (out : List ImDrawCmd) (fin : List Nat)
    (h : legacyLoop origin scale idxBytes vtx_start idx_start totalV srcIdx cmds acc
      = some (out, fin))
    (hlen : ∀ c ∈ cmds, c.IdxOffset + c.ElemCount ≤ srcIdx.length)
    (hacc : acc.length = srcIdx.length) :
    ∀ c ∈ cmds, ∀ k < c.ElemCount,
      fin.getD (c.IdxOffset + k) 0
        = (srcIdx.getD (c.IdxOffset + k) 0 + vtx_start) % 2 ^ (8 * idxBytes) := by
  induction cmds generalizing acc out fin with
  | nil => intro c hc; exact absurd hc (List.not_mem_nil c)
  | cons c rest ih =>
    simp only [legacyLoop] at h
    by_cases hoff : c.VtxOffset = 0
    · rw [if_neg (not_not_intro hoff)] at h
      by_cases hguard : 4 ≤ idxBytes ∨
          vtx_start + c.VtxOffset + totalV - 1 ≤ 2 ^ (8 * idxBytes) - 1
      · rw [if_pos hguard] at h
        cases hrec : legacyLoop origin scale idxBytes vtx_start idx_start totalV srcIdx rest
            (listWrite acc c.IdxOffset
              (((srcIdx.drop c.IdxOffset).take c.ElemCount).map
                (fun i => (i + (vtx_start + c.VtxOffset)) % 2 ^ (8 * idxBytes)))) with
        | none => rw [hrec] at h; exact absurd h (by simp)
        | some p =>
          rw [hrec] at h
          obtain ⟨cmds', fin'⟩ := p
          simp only [Option.some.injEq, Prod.mk.injEq] at h
          rw [← h.2]
          intro d hd
          rcases List.mem_cons.mp hd with hd | hd
          · -- the head command's own index run
            subst hd
            intro k hk
            have hdl : d.IdxOffset + d.ElemCount ≤ srcIdx.length :=
              hlen d (List.mem_cons_self d rest)
            have hcanon : (listWrite acc d.IdxOffset
                (((srcIdx.drop d.IdxOffset).take d.ElemCount).map
                  (fun i => (i + (vtx_start + d.VtxOffset)) % 2 ^ (8 * idxBytes)))).getD
                  (d.IdxOffset + k) 0
                = (srcIdx.getD (d.IdxOffset + k) 0 + vtx_start) % 2 ^ (8 * idxBytes) := by
              rw [listWrite_getD, if_pos]
              · rw [Nat.add_sub_cancel_left,
                  baked_getD srcIdx d.IdxOffset d.ElemCount _ _ _ hk (by omega), hoff,
                  Nat.add_zero]
              · refine ⟨Nat.le_add_right _ _, ?_, ?_⟩
                · simp only [List.length_map, List.length_take, List.length_drop]
                  omega
                · omega
            rcases legacyLoop_getD_or origin scale idxBytes vtx_start idx_start totalV srcIdx
                rest _ _ _ hrec (d.IdxOffset + k) with hv | hv
            · rw [hv, hcanon]
            · rw [hv]
          · exact ih _ _ _ hrec (fun e he => hlen e (List.mem_cons_of_mem c he))
              (by rw [listWrite_length]; exact hacc) d hd
      · rw [if_neg hguard] at h
        exact absurd h (by simp)
    · rw [if_pos hoff] at h
      exact absurd h (by simp)

/-! ## Sample concrete inputs used by witnesses -/

/-- A sample draw vertex. -/
def sampleVert (a b : ℚ) : ImDrawVert := { pos := ⟨a, b⟩, uv := ⟨a / 2, b / 2⟩, col := 7 }

/-- A sample source draw list: one triangle, one command. -/
def sampleSrc : ImDrawList :=
  { VtxBuffer := [sampleVert 0 0, sampleVert 1 0, sampleVert 0 1]
    IdxBuffer := [0, 1, 2]
    CmdBuffer := [{ ClipRect := ⟨0, 0, 5, 5⟩, VtxOffset := 0, IdxOffset := 0, ElemCount := 3 }]
    VtxCurrentIdx := 3 }

/-- A sample destination draw list with pre-existing content. -/
def sampleDst : ImDrawList :=
  { VtxBuffer := [sampleVert 2 2, sampleVert 3 3]
    IdxBuffer := [0, 0, 1]
    CmdBuffer := [{ ClipRect := ⟨0, 0, 9, 9⟩, VtxOffset := 0, IdxOffset := 0, ElemCount := 3 }]
    VtxCurrentIdx := 2 }

/-- A sample pointer-move input event. -/
def sampleMouseEvent : ImGuiInputEvent :=
  { EvType := ImGuiInputEventType.MousePos, Source := 1, EventId := 10
    MousePosX := 12, MousePosY := 34, MouseSource := 0, payload := 0
    AddedByTestEngine := false }

/-- A sample key input event. -/
def sampleKeyEvent : ImGuiInputEvent :=
  { EvType := ImGuiInputEventType.Key, Source := 2, EventId := 11
    MousePosX := 0, MousePosY := 0, MouseSource := 0, payload := 42
    AddedByTestEngine := false }

/-- A sample ImGui context. -/
def sampleCtx : ImGuiContextM :=
  { ioState := { DeltaTime := 1 / 60, MouseDelta := ⟨3, 4⟩, MousePos := ⟨10, 20⟩ }
    InputEventsQueue := [sampleKeyEvent]
    InputEventsTrail := [sampleMouseEvent, sampleKeyEvent]
    PlatformImeData := 5 }

theorem legacyLoop_none_iff (origin : ImVec2) (scale : ℚ)
    (idxBytes vtx_start idx_start totalV : Nat) (srcIdx : List Nat)
    (cmds : List ImDrawCmd) (acc : List Nat) (hne : cmds ≠ []) :
    legacyLoop origin scale idxBytes vtx_start idx_start totalV srcIdx cmds acc = none ↔
      (∃ c ∈ cmds, c.VtxOffset ≠ 0) ∨
      (¬(4 ≤ idxBytes) ∧ ¬(vtx_start + totalV - 1 ≤ 2 ^ (8 * idxBytes) - 1)) := by
  induction cmds generalizing acc with
  | nil => exact absurd rfl hne
  | cons c rest ih =>
    simp only [legacyLoop]
    by_cases hoff : c.VtxOffset = 0
    · rw [if_neg (not_not_intro hoff)]
      by_cases hguard : 4 ≤ idxBytes ∨
          vtx_start + c.VtxOffset + totalV - 1 ≤ 2 ^ (8 * idxBytes) - 1
      · rw [if_pos hguard]
        cases hrest : rest with
        | nil =>
          simp only [legacyLoop]
          constructor
          · intro hcontra; exact absurd hcontra (by simp)
          · rintro (⟨c₀, hc₀, hc₀off⟩ | ⟨h4, hov⟩)
            · rcases List.mem_cons.mp hc₀ with he | he
              · exact absurd (he ▸ hc₀off) (not_not_intro hoff)
              · exact absurd he (List.not_mem_nil c₀)
            · rw [hoff, Nat.add_zero] at hguard
              rcases hguard with hg | hg
              · exact absurd hg h4
              · exact absurd hg hov
        | cons d ds =>
          rw [← hrest]
          have hr : rest ≠ [] := by rw [hrest]; exact List.cons_ne_nil d ds
          cases hrec : legacyLoop origin scale idxBytes vtx_start idx_start totalV srcIdx
              rest (listWrite acc c.IdxOffset
                (((srcIdx.drop c.IdxOffset).take c.ElemCount).map
                  (fun i => (i + (vtx_start + c.VtxOffset)) % 2 ^ (8 * idxBytes)))) with
          | none =>
            have hIH := (ih _ hr).mp hrec
            simp only [hrec]
            constructor
            · intro _
              rcases hIH with ⟨c₀, hc₀, hoff₀⟩ | hright
              · exact Or.inl ⟨c₀, List.mem_cons_of_mem c hc₀, hoff₀⟩
              · exact Or.inr hright
            · intro _; trivial
          | some p =>
            obtain ⟨cmds', fin'⟩ := p
            simp only [hrec]
            constructor
            · intro hcontra; exact absurd hcontra (by simp)
            · rintro (⟨c₀, hc₀, hc₀off⟩ | hright)
              · rcases List.mem_cons.mp hc₀ with he | he
                · exact absurd (he ▸ hc₀off) (not_not_intro hoff)
                · exact absurd hrec (by
                    rw [(ih _ hr).mpr (Or.inl ⟨c₀, he, hc₀off⟩)]
                    simp)
              · exact absurd hrec (by
                  rw [(ih _ hr).mpr (Or.inr hright)]
                  simp)
      · rw [if_neg hguard]
        simp only [true_iff]
        right
        rw [hoff, Nat.add_zero] at hguard
        exact ⟨fun h4 => hguard (Or.inl h4), fun hov => hguard (Or.inr hov)⟩
    · rw [if_pos hoff]
      simp only [true_iff]
      exact Or.inl ⟨c, List.mem_cons_self c rest, hoff⟩

/-- The empty draw list. -/
def emptyDL : ImDrawList :=
  { VtxBuffer := [], IdxBuffer := [], CmdBuffer := [], VtxCurrentIdx := 0 }

/-- The end-to-end scenario source: 2 commands with 4 and 6 vertices,
base offsets 0 and 4, segment-local indices. -/
def scenarioSrc : ImDrawList :=
  { VtxBuffer := [sampleVert 0 0, sampleVert 1 0, sampleVert 2 0, sampleVert 3 0,
      sampleVert 4 0, sampleVert 5 0, sampleVert 6 0, sampleVert 7 0,
      sampleVert 8 0, sampleVert 9 0]
    IdxBuffer := [0, 1, 2, 1, 2, 3, 0, 1, 2, 3, 4, 5]
    CmdBuffer := [
      { ClipRect := ⟨0, 0, 1, 1⟩, VtxOffset := 0, IdxOffset := 0, ElemCount := 6 },
      { ClipRect := ⟨0, 0, 1, 1⟩, VtxOffset := 4, IdxOffset := 6, ElemCount := 6 }]
    VtxCurrentIdx := 3 }

/-- The expected result of merging `scenarioSrc` into an empty destination at
origin 0 and scale 1: buffers identical to the source, final counter 6. -/
def scenarioMerged : ImDrawList := { scenarioSrc with VtxCurrentIdx := 6 }

/-! ## Claim C1: the compositor round trip -/

/-- C1: for a non-empty (well-formed) source with `V` vertices and `I`
indices, a successful AppendDrawData grows the destination by exactly `V`
vertices and `I` indices, and every appended index, resolved against its
command's effective base vertex offset, addresses a vertex inside the newly
appended `V`-vertex region — never a pre-existing destination vertex.  Holds
on both the vertex-offset-capable branch and the legacy branch (`hFit` is the
machine bound `buffer sizes are ints`, needed only for a wide index type on
the legacy branch, where the baked cast is modelled by a mod). -/
theorem claimC1 (hasVtxOffset : Bool) (idxBytes : Nat) (dl src dl' : ImDrawList)
    (origin : ImVec2) (scale : ℚ)
    (hV : src.VtxBuffer ≠ []) (hC : src.CmdBuffer ≠ [])
    (hvalid : ValidSrc src)
    (hFit : 4 ≤ idxBytes → hasVtxOffset = false →
      dl.VtxBuffer.length + src.VtxBuffer.length ≤ 2 ^ (8 * idxBytes))
    (happ : AppendDrawData hasVtxOffset idxBytes dl src origin scale = some dl') :
    dl'.VtxBuffer.length = dl.VtxBuffer.length + src.VtxBuffer.length ∧
    dl'.IdxBuffer.length = dl.IdxBuffer.length + src.IdxBuffer.length ∧
    ∀ cmd ∈ dl'.CmdBuffer.drop dl.CmdBuffer.length,
      ∀ k < cmd.ElemCount,
        dl.VtxBuffer.length ≤ cmd.VtxOffset + dl'.IdxBuffer.getD (cmd.IdxOffset + k) 0 ∧
        cmd.VtxOffset + dl'.IdxBuffer.getD (cmd.IdxOffset + k) 0
          < dl.VtxBuffer.length + src.VtxBuffer.length := by
  have hcond : ¬(src.VtxBuffer = [] ∨ src.CmdBuffer = []) := by simp [hV, hC]
  unfold AppendDrawData at happ
  rw [if_neg hcond] at happ
  cases hasVtxOffset with
  | true =>
    simp only [if_pos] at happ
    cases happ
    refine ⟨by simp, by simp, ?_⟩
    intro cmd hcmd k hk
    simp only [List.drop_left, capableLoop_map_fst] at hcmd
    obtain ⟨c, hc, rfl⟩ := List.mem_map.mp hcmd
    simp only [capableFixup] at hk ⊢
    obtain ⟨hcl, hcv⟩ := hvalid c hc
    have hval := hcv k hk
    have hn : dl.IdxBuffer.length ≤ c.IdxOffset + dl.IdxBuffer.length + k := by omega
    rw [List.getD_append_right _ _ _ _ hn]
    have harith : c.IdxOffset + dl.IdxBuffer.length + k - dl.IdxBuffer.length
        = c.IdxOffset + k := by omega
    rw [harith]
    omega
  | false =>
    simp only [Bool.false_eq_true, if_neg] at happ
    cases hleg : legacyLoop origin scale idxBytes dl.VtxBuffer.length dl.IdxBuffer.length
        src.VtxBuffer.length src.IdxBuffer src.CmdBuffer
        (List.replicate src.IdxBuffer.length 0) with
    | none => rw [hleg] at happ; exact absurd happ (by simp)
    | some p =>
      obtain ⟨cmds, region⟩ := p
      rw [hleg] at happ
      cases happ
      obtain ⟨hout, hoff0, hlenr, hguard⟩ :=
        legacyLoop_some_spec _ _ _ _ _ _ _ _ _ _ _ hleg
      have hVpos : 0 < src.VtxBuffer.length := List.length_pos.mpr hV
      have hpow : 1 ≤ 2 ^ (8 * idxBytes) := Nat.one_le_two_pow
      have hfit2 : dl.VtxBuffer.length + src.VtxBuffer.length ≤ 2 ^ (8 * idxBytes) := by
        by_cases hb : 4 ≤ idxBytes
        · exact hFit hb rfl
        · rcases hguard hC with hg | hg
          · exact absurd hg hb
          · omega
      refine ⟨by simp, ?_, ?_⟩
      · simp only [List.length_append]
        rw [hlenr, List.length_replicate]
      · intro cmd hcmd k hk
        simp only [List.drop_left] at hcmd
        rw [hout] at hcmd
        obtain ⟨c, hc, rfl⟩ := List.mem_map.mp hcmd
        simp only [legacyFixup] at hk ⊢
        obtain ⟨hcl, hcv⟩ := hvalid c hc
        have hval := hcv k hk
        rw [hoff0 c hc, Nat.zero_add] at hval
        have hn : dl.IdxBuffer.length ≤ c.IdxOffset + dl.IdxBuffer.length + k := by omega
        rw [List.getD_append_right _ _ _ _ hn]
        have harith : c.IdxOffset + dl.IdxBuffer.length + k - dl.IdxBuffer.length
            = c.IdxOffset + k := by omega
        rw [harith]
        have hcov := legacyLoop_covered _ _ _ _ _ _ _ _ _ _ _ hleg
          (fun e he => (hvalid e he).1) (by simp) c hc k hk
        rw [hcov, Nat.mod_eq_of_lt (by omega)]
        omega

/-- The concrete result of merging `sampleSrc` into `sampleDst` at origin
(1,2) and scale 2 on the capable branch. -/
def sampleMergedCapable : ImDrawList :=
  { VtxBuffer := [sampleVert 2 2, sampleVert 3 3,
      { pos := ⟨1, 2⟩, uv := ⟨0, 0⟩, col := 7 },
      { pos := ⟨3, 2⟩, uv := ⟨1 / 2, 0⟩, col := 7 },
      { pos := ⟨1, 4⟩, uv := ⟨0, 1 / 2⟩, col := 7 }]
    IdxBuffer := [0, 0, 1, 0, 1, 2]
    CmdBuffer := [
      { ClipRect := ⟨0, 0, 9, 9⟩, VtxOffset := 0, IdxOffset := 0, ElemCount := 3 },
      { ClipRect := ⟨1, 2, 11, 12⟩, VtxOffset := 2, IdxOffset := 3, ElemCount := 3 }]
    VtxCurrentIdx := 3 }

theorem sampleMerge_eval :
    AppendDrawData true 2 sampleDst sampleSrc ⟨1, 2⟩ 2 = some sampleMergedCapable := by
  norm_num [AppendDrawData, capableLoop, nextVtxOffset, transformVert, transformClip,
    UINT_MAX, sampleDst, sampleSrc, sampleVert, sampleMergedCapable,
    ImVec2_mul_def, ImVec2_add_def]
  exact List.cons_ne_nil _ _

/-- Witness for C1 on the capable branch at a concrete merge. -/
theorem claimC1_witness :
    sampleSrc.VtxBuffer ≠ [] ∧ ValidSrc sampleSrc ∧
    AppendDrawData true 2 sampleDst sampleSrc ⟨1, 2⟩ 2 = some sampleMergedCapable ∧
    sampleMergedCapable.VtxBuffer.length
      = sampleDst.VtxBuffer.length + sampleSrc.VtxBuffer.length :=
  ⟨by decide, by decide, sampleMerge_eval,
    (claimC1 true 2 sampleDst sampleSrc sampleMergedCapable ⟨1, 2⟩ 2 (by decide) (by decide)
      (by decide) (fun h _ => absurd h (by norm_num)) sampleMerge_eval).1⟩

/-! ## Claim C2: capable-branch offsets and the segment-relative counter -/

theorem scenarioMerge_eval :
    AppendDrawData true 2 emptyDL scenarioSrc ⟨0, 0⟩ 1 = some scenarioMerged := by
  norm_num [AppendDrawData, capableLoop, nextVtxOffset, transformVert, transformClip,
    UINT_MAX, emptyDL, scenarioSrc, scenarioMerged, sampleVert,
    ImVec2_mul_def, ImVec2_add_def]
  exact ⟨List.cons_ne_nil _ _, List.cons_ne_nil _ _⟩


/-- C2: on a vertex-offset-capable backend, every appended command's
vertex-segment offset and index offset are shifted by the destination's
pre-append vertex/index counts (`capableFixup`), the value assigned to the
running `_VtxCurrentIdx` counter while processing each command is the vertex
count of that command's segment (`segTrace`), never an absolute destination
position, and the final counter is the last segment's vertex count.
Concretely, the 2-command source with 4- and 6-vertex segments (offsets 0, 4)
merged into an empty destination yields 10 vertices, segment offsets 0 and 4,
unchanged index offsets, and a final counter of 6. -/
theorem claimC2 :
    (∀ (idxBytes : Nat) (dl src dl' : ImDrawList) (origin : ImVec2) (scale : ℚ),
      src.VtxBuffer ≠ [] → src.CmdBuffer ≠ [] →
      (∀ cmd ∈ src.CmdBuffer, cmd.VtxOffset ≠ UINT_MAX) →
      AppendDrawData true idxBytes dl src origin scale = some dl' →
      dl'.CmdBuffer = dl.CmdBuffer ++ src.CmdBuffer.map
        (capableFixup origin scale dl.VtxBuffer.length dl.IdxBuffer.length) ∧
      (capableLoop origin scale src.VtxBuffer.length dl.VtxBuffer.length
          dl.IdxBuffer.length UINT_MAX 0 src.CmdBuffer).map Prod.snd =
        segTrace src.VtxBuffer.length src.CmdBuffer ∧
      dl'.VtxCurrentIdx =
        (segTrace src.VtxBuffer.length src.CmdBuffer).getLastD dl.VtxCurrentIdx) ∧
    (AppendDrawData true 2 emptyDL scenarioSrc ⟨0, 0⟩ 1 = some scenarioMerged ∧
      scenarioMerged.VtxBuffer.length = 10 ∧
      scenarioMerged.CmdBuffer.map ImDrawCmd.VtxOffset = [0, 4] ∧
      scenarioMerged.CmdBuffer.map ImDrawCmd.IdxOffset =
        scenarioSrc.CmdBuffer.map ImDrawCmd.IdxOffset ∧
      scenarioMerged.VtxCurrentIdx = 6) := by
  constructor
  · intro idxBytes dl src dl' origin scale hV hC hUM happ
    have hcond : ¬(src.VtxBuffer = [] ∨ src.CmdBuffer = []) := by simp [hV, hC]
    unfold AppendDrawData at happ
    rw [if_neg hcond] at happ
    simp only [if_pos] at happ
    cases happ
    have hsnd := capableLoop_map_snd origin scale src.VtxBuffer.length dl.VtxBuffer.length
      dl.IdxBuffer.length src.CmdBuffer UINT_MAX 0 (Or.inr hUM)
    refine ⟨?_, hsnd, ?_⟩
    · simp [capableLoop_map_fst]
    · simp only [hsnd]
  · refine ⟨scenarioMerge_eval, by decide, by decide, by decide, by decide⟩

/-- Witness for C2's universally quantified part at a concrete merge. -/
theorem claimC2_witness :
    (∀ cmd ∈ sampleSrc.CmdBuffer, cmd.VtxOffset ≠ UINT_MAX) ∧
    sampleMergedCapable.VtxCurrentIdx =
      (segTrace sampleSrc.VtxBuffer.length sampleSrc.CmdBuffer).getLastD
        sampleDst.VtxCurrentIdx :=
  ⟨by decide,
    (claimC2.1 2 sampleDst sampleSrc sampleMergedCapable ⟨1, 2⟩ 2 (by decide) (by decide)
      (by decide) sampleMerge_eval).2.2⟩

/-! ## Claim C3: the legacy-branch fatal assertions -/

/-- A source draw list with a non-zero base vertex offset in its command. -/
def srcBadOffset : ImDrawList :=
  { VtxBuffer := [sampleVert 0 0, sampleVert 1 0]
    IdxBuffer := [0]
    CmdBuffer := [{ ClipRect := ⟨0, 0, 1, 1⟩, VtxOffset := 1, IdxOffset := 0, ElemCount := 1 }]
    VtxCurrentIdx := 2 }

/-- C3: on a legacy backend, AppendDrawData asserts (returns `none`) exactly
when some source command has a non-zero base vertex offset, or the index
element is 16-bit and the baked absolute indices (pre-append destination
vertex count plus source vertex count) would exceed its numeric range; on a
vertex-offset-capable backend the same input always merges without
asserting. -/
theorem claimC3 (idxBytes : Nat) (dl src : ImDrawList) (origin : ImVec2) (scale : ℚ)
    (hV : src.VtxBuffer ≠ []) (hC : src.CmdBuffer ≠ [])
    (hb : idxBytes = 2 ∨ idxBytes = 4) :
    (AppendDrawData false idxBytes dl src origin scale = none ↔
      (∃ cmd ∈ src.CmdBuffer, cmd.VtxOffset ≠ 0) ∨
      (idxBytes = 2 ∧ 2 ^ 16 < dl.VtxBuffer.length + src.VtxBuffer.length)) ∧
    AppendDrawData true idxBytes dl src origin scale ≠ none := by
  have hcond : ¬(src.VtxBuffer = [] ∨ src.CmdBuffer = []) := by simp [hV, hC]
  have hVpos : 0 < src.VtxBuffer.length := List.length_pos.mpr hV
  constructor
  · have hiff := legacyLoop_none_iff origin scale idxBytes dl.VtxBuffer.length
      dl.IdxBuffer.length src.VtxBuffer.length src.IdxBuffer src.CmdBuffer
      (List.replicate src.IdxBuffer.length 0) hC
    have happ : AppendDrawData false idxBytes dl src origin scale = none ↔
        legacyLoop origin scale idxBytes dl.VtxBuffer.length dl.IdxBuffer.length
          src.VtxBuffer.length src.IdxBuffer src.CmdBuffer
          (List.replicate src.IdxBuffer.length 0) = none := by
      unfold AppendDrawData
      rw [if_neg hcond]
      simp only [Bool.false_eq_true, if_neg]
      cases hleg : legacyLoop origin scale idxBytes dl.VtxBuffer.length dl.IdxBuffer.length
          src.VtxBuffer.length src.IdxBuffer src.CmdBuffer
          (List.replicate src.IdxBuffer.length 0) with
      | none => simp
      | some p => obtain ⟨cmds, region⟩ := p; simp
    rw [happ, hiff]
    rcases hb with hb | hb <;> subst hb
    · have hpow : (2 : Nat) ^ (8 * 2) = 65536 := by norm_num
      constructor
      · rintro (hl | ⟨_, hr⟩)
        · exact Or.inl hl
        · refine Or.inr ⟨rfl, ?_⟩
          rw [hpow] at hr
          norm_num
          omega
      · rintro (hl | ⟨_, hr⟩)
        · exact Or.inl hl
        · refine Or.inr ⟨by norm_num, ?_⟩
          rw [hpow]
          norm_num at hr ⊢
          omega
    · constructor
      · rintro (hl | ⟨h4, _⟩)
        · exact Or.inl hl
        · exact absurd (by norm_num : 4 ≤ 4) h4
      · rintro (hl | ⟨hx, _⟩)
        · exact Or.inl hl
        · exact absurd hx (by norm_num)
  · unfold AppendDrawData
    rw [if_neg hcond]
    simp

/-- Witness for C3: a non-zero base offset asserts on the legacy branch and
merges fine on the capable branch. -/
theorem claimC3_witness :
    ((AppendDrawData false 2 emptyDL srcBadOffset ⟨0, 0⟩ 1 = none ↔
      (∃ cmd ∈ srcBadOffset.CmdBuffer, cmd.VtxOffset ≠ 0) ∨
      (2 = 2 ∧ 2 ^ 16 < emptyDL.VtxBuffer.length + srcBadOffset.VtxBuffer.length)) ∧
    AppendDrawData true 2 emptyDL srcBadOffset ⟨0, 0⟩ 1 ≠ none) :=
  claimC3 2 emptyDL srcBadOffset ⟨0, 0⟩ 1 (by decide) (by decide) (Or.inl rfl)

/-! ## Claim C9: empty source is a no-op -/

/-- C9: if the source draw list has no vertices or no commands, AppendDrawData
returns the destination unchanged (vertex, index and command buffers, the
current-vertex-index counter, and hence also the write cursors, which always
denote the buffer ends). -/
theorem claimC9 (hasVtxOffset : Bool) (idxBytes : Nat) (dl src : ImDrawList)
    (origin : ImVec2) (scale : ℚ)
    (h : src.VtxBuffer = [] ∨ src.CmdBuffer = []) :
    AppendDrawData hasVtxOffset idxBytes dl src origin scale = some dl := by
  unfold AppendDrawData
  rw [if_pos h]

/-- Witness for C9 at a concrete empty-vertex source. -/
theorem claimC9_witness :
    AppendDrawData true 2 sampleDst { sampleSrc with VtxBuffer := [] } ⟨1, 2⟩ 2
      = some sampleDst :=
  claimC9 true 2 sampleDst { sampleSrc with VtxBuffer := [] } ⟨1, 2⟩ 2 (Or.inl rfl)

/-! ## Claim C10: the saved outer-context pointer after end() -/

/-- C10: `end()` nulls the saved outer-context pointer, therefore
`getScreenDelta()` — which dereferences that pointer — has no value
(dereferences null) when called after `end()`; after `begin()` has saved an
outer context it is well-defined and returns that context's mouse delta
divided by `scale()`. -/
theorem claimC10 :
    (∀ (c : ContainedContext) (inp : EndInputs),
        (ContainedContext.end c inp).m_original_ctx = none ∧
        (ContainedContext.end c inp).getScreenDelta = none) ∧
    (∀ (c : ContainedContext) (outer : ImGuiContextM),
        (ContainedContext.beginSaveCtx c outer).getScreenDelta =
          some (outer.ioState.MouseDelta / c.m_scale)) :=
  ⟨fun _ _ => ⟨rfl, rfl⟩, fun _ _ => rfl⟩

/-! ## Claim C8: input forwarding -/

/-- C8: `CopyIOEvents` does not mutate the outer context (in particular its
trail); the inner pending queue becomes the remap of the outer
already-processed trail (not of the outer pending queue); pointer-position
events are remapped by `(q - origin) / scale` with every other field
untouched; events of any other kind are identical before and after. -/
theorem claimC8 (src dst : ImGuiContextM) (origin : ImVec2) (scale : ℚ) :
    (CopyIOEvents src dst origin scale).1 = src ∧
    (CopyIOEvents src dst origin scale).2.InputEventsQueue =
      src.InputEventsTrail.map (RemapEvent origin scale) ∧
    (∀ e : ImGuiInputEvent, e.EvType = ImGuiInputEventType.MousePos →
        RemapEvent origin scale e =
          { e with
              MousePosX := (e.MousePosX - origin.x) / scale
              MousePosY := (e.MousePosY - origin.y) / scale }) ∧
    (∀ e : ImGuiInputEvent, e.EvType ≠ ImGuiInputEventType.MousePos →
        RemapEvent origin scale e = e) := by
  refine ⟨rfl, rfl, fun e he => ?_, fun e he => ?_⟩
  · simp [RemapEvent, he]
  · simp [RemapEvent, he]

/-- Witness for C8 at concrete contexts and events. -/
theorem claimC8_witness :
    (CopyIOEvents sampleCtx sampleCtx ⟨2, 4⟩ 2).1 = sampleCtx ∧
    RemapEvent ⟨2, 4⟩ 2 sampleMouseEvent =
      { sampleMouseEvent with MousePosX := 5, MousePosY := 15 } ∧
    RemapEvent ⟨2, 4⟩ 2 sampleKeyEvent = sampleKeyEvent := by
  have h := claimC8 sampleCtx sampleCtx ⟨2, 4⟩ 2
  refine ⟨h.1, ?_, h.2.2.2 sampleKeyEvent (by decide)⟩
  rw [h.2.2.1 sampleMouseEvent rfl]
  norm_num [sampleMouseEvent]

/-! ## Claim C4: vertex transform -/

/-- C4: for every source vertex with position `p`, uv and color, the
corresponding appended destination vertex has position `p * scale + origin`
with uv and color unchanged, for any positive scale and any origin. -/
theorem claimC4 (hasVtxOffset : Bool) (idxBytes : Nat) (dl src dl' : ImDrawList)
    (origin : ImVec2) (scale : ℚ) (hscale : 0 < scale)
    (hV : src.VtxBuffer ≠ []) (hC : src.CmdBuffer ≠ [])
    (happ : AppendDrawData hasVtxOffset idxBytes dl src origin scale = some dl') :
    dl'.VtxBuffer.drop dl.VtxBuffer.length =
      src.VtxBuffer.map (fun v => { pos := v.pos * scale + origin, uv := v.uv, col := v.col }) := by
  have hcond : ¬(src.VtxBuffer = [] ∨ src.CmdBuffer = []) := by simp [hV, hC]
  unfold AppendDrawData at happ
  rw [if_neg hcond] at happ
  cases hasVtxOffset with
  | true =>
    simp only [if_pos] at happ
    cases happ
    simp [transformVert, List.drop_left]
  | false =>
    simp only [Bool.false_eq_true, if_neg] at happ
    cases hleg : legacyLoop origin scale idxBytes dl.VtxBuffer.length dl.IdxBuffer.length
        src.VtxBuffer.length src.IdxBuffer src.CmdBuffer
        (List.replicate src.IdxBuffer.length 0) with
    | none => rw [hleg] at happ; exact absurd happ (by simp)
    | some p =>
      rw [hleg] at happ
      cases happ
      simp [transformVert, List.drop_left]

/-! ## Zoom control loop: range invariants (claims C5-C7) -/

/-- Both zoom values lie in the configured `[zoom_min, zoom_max]` range. -/
def InZoomRange (cfg : ContainedContextConfig) (st : ZoomState) : Prop :=
  (cfg.zoom_min ≤ st.scale ∧ st.scale ≤ cfg.zoom_max) ∧
  (cfg.zoom_min ≤ st.scaleTarget ∧ st.scaleTarget ≤ cfg.zoom_max)

theorem zoomWheelStep_clamps (cfg : ContainedContextConfig) (m_pos mousePos : ImVec2)
    (wheel : ℚ) (st : ZoomState) (hmm : cfg.zoom_min ≤ cfg.zoom_max)
    (h : InZoomRange cfg st) :
    InZoomRange cfg (zoomWheelStep cfg m_pos mousePos wheel st) := by
  obtain ⟨⟨hs1, hs2⟩, _⟩ := h
  unfold zoomWheelStep
  set t0 := st.scaleTarget + wheel / cfg.zoom_divisions with ht0
  set t1 := if t0 < cfg.zoom_min then cfg.zoom_min else t0 with ht1
  set t := if cfg.zoom_max < t1 then cfg.zoom_max else t1 with ht
  have htlo : cfg.zoom_min ≤ t := by
    rw [ht, ht1]
    split_ifs with h1 h2 h3 <;> first | exact hmm | exact le_refl _ | linarith
  have hthi : t ≤ cfg.zoom_max := by
    rw [ht, ht1]
    split_ifs with h1 h2 h3 <;> first | exact hmm | exact le_refl _ | linarith
  split_ifs
  · exact ⟨⟨htlo, hthi⟩, htlo, hthi⟩
  · exact ⟨⟨hs1, hs2⟩, htlo, hthi⟩

theorem zoomSmoothStep_range (cfg : ContainedContextConfig) (m_pos mousePos : ImVec2)
    (st : ZoomState) (hs : cfg.zoom_smoothness = 0 ∨ 1 ≤ cfg.zoom_smoothness)
    (h : InZoomRange cfg st) :
    InZoomRange cfg (zoomSmoothStep cfg m_pos mousePos st) := by
  obtain ⟨⟨hx1, hx2⟩, ht1, ht2⟩ := h
  simp only [zoomSmoothStep]
  split_ifs with hcond hsnap
  · exact ⟨⟨ht1, ht2⟩, ht1, ht2⟩
  · rcases hs with hs | hs
    · exfalso; rw [hs] at hcond; exact absurd hcond.1 (lt_irrefl 0)
    have hspos : (0 : ℚ) < cfg.zoom_smoothness := lt_of_lt_of_le one_pos hs
    have hlo : cfg.zoom_min ≤ st.scale + (st.scaleTarget - st.scale) / cfg.zoom_smoothness ∧
        st.scale + (st.scaleTarget - st.scale) / cfg.zoom_smoothness ≤ cfg.zoom_max := by
      rcases le_or_lt st.scale st.scaleTarget with hle | hlt
      · have h0 : 0 ≤ (st.scaleTarget - st.scale) / cfg.zoom_smoothness :=
          div_nonneg (by linarith) (le_of_lt hspos)
        have hup : (st.scaleTarget - st.scale) / cfg.zoom_smoothness
            ≤ st.scaleTarget - st.scale := div_le_self (by linarith) hs
        constructor <;> linarith
      · have h0 : (st.scaleTarget - st.scale) / cfg.zoom_smoothness ≤ 0 :=
          div_nonpos_of_nonpos_of_nonneg (by linarith) (le_of_lt hspos)
        have hdn : st.scaleTarget - st.scale
            ≤ (st.scaleTarget - st.scale) / cfg.zoom_smoothness := by
          rw [div_eq_mul_inv]
          have hinv1 : cfg.zoom_smoothness⁻¹ ≤ 1 := by
            rw [inv_le_one_iff₀]; right; exact hs
          have hinv0 : 0 < cfg.zoom_smoothness⁻¹ := inv_pos.mpr hspos
          nlinarith
        constructor <;> linarith
    exact ⟨hlo, ht1, ht2⟩
  · exact ⟨⟨hx1, hx2⟩, ht1, ht2⟩

theorem zoomResetStep_range (cfg : ContainedContextConfig) (pressed : Bool)
    (st : ZoomState)
    (hdz : cfg.zoom_min ≤ cfg.default_zoom ∧ cfg.default_zoom ≤ cfg.zoom_max)
    (h : InZoomRange cfg st) :
    InZoomRange cfg (zoomResetStep cfg pressed st) := by
  unfold zoomResetStep
  split_ifs
  · exact ⟨h.1, hdz⟩
  · exact h

theorem dragScrollStep_range (cfg : ContainedContextConfig) (doDrag : Bool)
    (mouseDelta : ImVec2) (st : ZoomState) (h : InZoomRange cfg st) :
    InZoomRange cfg (dragScrollStep doDrag mouseDelta st) := by
  unfold dragScrollStep
  split_ifs
  · exact h
  · exact h

theorem endZoomState_range (cfg : ContainedContextConfig) (m_pos : ImVec2)
    (hovered : Bool) (inp : EndInputs) (st0 : ZoomState)
    (hdz : cfg.zoom_min ≤ cfg.default_zoom ∧ cfg.default_zoom ≤ cfg.zoom_max)
    (hs : cfg.zoom_smoothness = 0 ∨ 1 ≤ cfg.zoom_smoothness)
    (h : InZoomRange cfg st0) :
    InZoomRange cfg (endZoomState cfg m_pos hovered inp st0) := by
  have hmm : cfg.zoom_min ≤ cfg.zoom_max := le_trans hdz.1 hdz.2
  unfold endZoomState
  apply dragScrollStep_range
  apply zoomResetStep_range _ _ _ hdz
  apply zoomSmoothStep_range _ _ _ _ hs
  split_ifs
  · exact zoomWheelStep_clamps _ _ _ _ _ hmm h
  · exact h

theorem end_m_config (c : ContainedContext) (inp : EndInputs) :
    (ContainedContext.end c inp).m_config = c.m_config := rfl

theorem end_m_pos (c : ContainedContext) (inp : EndInputs) :
    (ContainedContext.end c inp).m_pos = c.m_pos := rfl

theorem end_zoom_state (c : ContainedContext) (inp : EndInputs) :
    (ContainedContext.end c inp).m_scale =
      (endZoomState c.m_config c.m_pos
        (inp.isWindowHoveredChildWindows &&
          !(if c.m_config.extra_window_wrapper && inp.isWindowHovered then false
            else inp.isWindowHoveredAnyWindow)) inp
        { scale := c.m_scale, scaleTarget := c.m_scaleTarget,
          scroll := c.m_scroll }).scale ∧
    (ContainedContext.end c inp).m_scaleTarget =
      (endZoomState c.m_config c.m_pos
        (inp.isWindowHoveredChildWindows &&
          !(if c.m_config.extra_window_wrapper && inp.isWindowHovered then false
            else inp.isWindowHoveredAnyWindow)) inp
        { scale := c.m_scale, scaleTarget := c.m_scaleTarget,
          scroll := c.m_scroll }).scaleTarget := ⟨rfl, rfl⟩

/-! ## Claim C5: the zoom range invariant -/

/-- C5: for every sequence of frame inputs (wheel deltas and zoom-reset key
presses among them), starting from in-range zoom state under a
well-formed configuration (default zoom inside `[zoom_min, zoom_max]`,
smoothness zero or at least one), after every `end()` both `scale()` and the
scale target lie in `[zoom_min, zoom_max]`; in particular the target is
clamped the moment an input adjusts it. -/
theorem claimC5 (cfg : ContainedContextConfig)
    (hdz : cfg.zoom_min ≤ cfg.default_zoom ∧ cfg.default_zoom ≤ cfg.zoom_max)
    (hs : cfg.zoom_smoothness = 0 ∨ 1 ≤ cfg.zoom_smoothness)
    (c : ContainedContext) (hcfg : c.m_config = cfg)
    (h1 : cfg.zoom_min ≤ c.m_scale ∧ c.m_scale ≤ cfg.zoom_max)
    (h2 : cfg.zoom_min ≤ c.m_scaleTarget ∧ c.m_scaleTarget ≤ cfg.zoom_max)
    (inps : List EndInputs) :
    (cfg.zoom_min ≤ (inps.foldl ContainedContext.end c).scale ∧
      (inps.foldl ContainedContext.end c).scale ≤ cfg.zoom_max) ∧
    (cfg.zoom_min ≤ (inps.foldl ContainedContext.end c).m_scaleTarget ∧
      (inps.foldl ContainedContext.end c).m_scaleTarget ≤ cfg.zoom_max) := by
  induction inps generalizing c with
  | nil => exact ⟨h1, h2⟩
  | cons inp rest ih =>
    rw [List.foldl_cons]
    have hrange : InZoomRange cfg
        { scale := c.m_scale, scaleTarget := c.m_scaleTarget, scroll := c.m_scroll } :=
      ⟨h1, h2⟩
    have hstep := endZoomState_range cfg c.m_pos
      (inp.isWindowHoveredChildWindows &&
        !(if cfg.extra_window_wrapper && inp.isWindowHovered then false
          else inp.isWindowHoveredAnyWindow)) inp
      { scale := c.m_scale, scaleTarget := c.m_scaleTarget, scroll := c.m_scroll }
      hdz hs hrange
    have hes := end_zoom_state c inp
    rw [hcfg] at hes
    exact ih (ContainedContext.end c inp) (by rw [end_m_config, hcfg])
      (by rw [hes.1]; exact hstep.1)
      (by rw [hes.2]; exact hstep.2)

/-- Concrete session used by the zoom witnesses (default configuration,
scale and target at the default zoom). -/
def sampleCfg : ContainedContextConfig := {}

/-- A sample session object. -/
def sampleSession : ContainedContext :=
  { m_config := sampleCfg, m_origin := ⟨0, 0⟩, m_pos := ⟨0, 0⟩, m_size := ⟨100, 100⟩
    m_ctx := sampleCtx, m_original_ctx := none
    m_anyWindowHovered := false, m_anyItemActive := false, m_hovered := false
    m_scale := 1, m_scaleTarget := 1, m_scroll := ⟨0, 0⟩ }

/-- A frame input carrying one wheel tick over a hovered viewport. -/
def sampleWheelInput : EndInputs :=
  { isWindowHoveredAnyWindow := false, isWindowHovered := false
    isAnyItemActive := false, isWindowHoveredChildWindows := true
    mouseWheel := 1, mousePos := ⟨5, 5⟩
    isResetKeyPressed := false, isMouseDragging := false, mouseDelta := ⟨0, 0⟩ }

/-- A frame input with no zoom-related activity. -/
def quiescentInput : EndInputs :=
  { isWindowHoveredAnyWindow := false, isWindowHovered := false
    isAnyItemActive := false, isWindowHoveredChildWindows := false
    mouseWheel := 0, mousePos := ⟨0, 0⟩
    isResetKeyPressed := false, isMouseDragging := false, mouseDelta := ⟨0, 0⟩ }

/-- Witness for C5 at the default configuration after one wheel frame. -/
theorem claimC5_witness :
    (sampleCfg.zoom_min ≤ sampleCfg.default_zoom ∧
      sampleCfg.default_zoom ≤ sampleCfg.zoom_max) ∧
    (sampleCfg.zoom_min ≤ ([sampleWheelInput].foldl ContainedContext.end sampleSession).scale ∧
      ([sampleWheelInput].foldl ContainedContext.end sampleSession).scale ≤
        sampleCfg.zoom_max) := by
  have h := claimC5 sampleCfg (by norm_num [sampleCfg]) (Or.inr (by norm_num [sampleCfg]))
    sampleSession rfl (by norm_num [sampleSession, sampleCfg])
    (by norm_num [sampleSession, sampleCfg]) [sampleWheelInput]
  exact ⟨by norm_num [sampleCfg], h.1⟩

/-! ## Claim C6: instant snap at zero smoothness -/

/-- The clamp applied to the adjusted scale target (source lines 327-328). -/
def clampZoom (cfg : ContainedContextConfig) (t : ℚ) : ℚ :=
  let t1 := if t < cfg.zoom_min then cfg.zoom_min else t
  if cfg.zoom_max < t1 then cfg.zoom_max else t1

/-- C6: with zero smoothness, a single wheel event over a hovered, zooming
enabled viewport sets `scale()` to the clamped target within the same
`end()` call, and adjusts the scroll so the point under the pointer stays
fixed: `scroll += (pointer - pos)/scaleTarget - (pointer - pos)/scale`. -/
theorem claimC6 (cfg : ContainedContextConfig) (c : ContainedContext) (inp : EndInputs)
    (hcfg : c.m_config = cfg)
    (hs0 : cfg.zoom_smoothness = 0)
    (hen : cfg.zoom_enabled = true)
    (hch : inp.isWindowHoveredChildWindows = true)
    (hany : inp.isWindowHoveredAnyWindow = false)
    (hw : inp.mouseWheel ≠ 0)
    (hr : inp.isResetKeyPressed = false)
    (hd : inp.isMouseDragging = false) :
    (ContainedContext.end c inp).m_scale
        = clampZoom cfg (c.m_scaleTarget + inp.mouseWheel / cfg.zoom_divisions) ∧
    (ContainedContext.end c inp).m_scaleTarget
        = clampZoom cfg (c.m_scaleTarget + inp.mouseWheel / cfg.zoom_divisions) ∧
    (ContainedContext.end c inp).m_scroll
        = c.m_scroll
          + (inp.mousePos - c.m_pos) /
              clampZoom cfg (c.m_scaleTarget + inp.mouseWheel / cfg.zoom_divisions)
          - (inp.mousePos - c.m_pos) / c.m_scale := by
  refine ⟨?_, ?_, ?_⟩ <;>
    simp [ContainedContext.end, endZoomState, zoomWheelStep, zoomSmoothStep,
      zoomResetStep, dragScrollStep, clampZoom, hcfg, hs0, hen, hch, hany, hw, hr, hd]

/-- Witness for C6 at a concrete zero-smoothness configuration. -/
theorem claimC6_witness :
    ({ zoom_smoothness := 0 } : ContainedContextConfig).zoom_smoothness = 0 ∧
    (ContainedContext.end { sampleSession with m_config := { zoom_smoothness := 0 } }
        sampleWheelInput).m_scale
      = clampZoom { zoom_smoothness := 0 }
          ({ sampleSession with
              m_config := { zoom_smoothness := 0 } }.m_scaleTarget
            + sampleWheelInput.mouseWheel /
              ({ zoom_smoothness := 0 } : ContainedContextConfig).zoom_divisions) := by
  have h := claimC6 { zoom_smoothness := 0 }
    { sampleSession with m_config := { zoom_smoothness := 0 } } sampleWheelInput
    rfl rfl rfl rfl rfl (by norm_num [sampleWheelInput]) rfl rfl
  exact ⟨rfl, h.1⟩

/-! ## Claim C7: smooth convergence -/

theorem zoomSmoothStep_scaleTarget (cfg : ContainedContextConfig)
    (m_pos mousePos : ImVec2) (st : ZoomState) :
    (zoomSmoothStep cfg m_pos mousePos st).scaleTarget = st.scaleTarget := by
  simp only [zoomSmoothStep]
  split_ifs <;> rfl

theorem zoomSmoothStep_not_fire (cfg : ContainedContextConfig)
    (m_pos mousePos : ImVec2) (st : ZoomState)
    (h : ¬(0 < cfg.zoom_smoothness ∧
      15 / 1000 / cfg.zoom_smoothness ≤ |st.scaleTarget - st.scale|)) :
    zoomSmoothStep cfg m_pos mousePos st = st := by
  simp only [zoomSmoothStep]
  rw [if_neg h]

theorem zoomSmoothStep_snap (cfg : ContainedContextConfig)
    (m_pos mousePos : ImVec2) (st : ZoomState)
    (hcond : 0 < cfg.zoom_smoothness ∧
      15 / 1000 / cfg.zoom_smoothness ≤ |st.scaleTarget - st.scale|)
    (hsnap : |st.scaleTarget -
        (st.scale + (st.scaleTarget - st.scale) / cfg.zoom_smoothness)|
      < 15 / 1000 / cfg.zoom_smoothness) :
    (zoomSmoothStep cfg m_pos mousePos st).scale = st.scaleTarget := by
  simp only [zoomSmoothStep]
  rw [if_pos hcond, if_pos hsnap]

theorem zoomSmoothStep_step (cfg : ContainedContextConfig)
    (m_pos mousePos : ImVec2) (st : ZoomState)
    (hcond : 0 < cfg.zoom_smoothness ∧
      15 / 1000 / cfg.zoom_smoothness ≤ |st.scaleTarget - st.scale|)
    (hnosnap : ¬(|st.scaleTarget -
        (st.scale + (st.scaleTarget - st.scale) / cfg.zoom_smoothness)|
      < 15 / 1000 / cfg.zoom_smoothness)) :
    (zoomSmoothStep cfg m_pos mousePos st).scale
      = st.scale + (st.scaleTarget - st.scale) / cfg.zoom_smoothness := by
  simp only [zoomSmoothStep]
  rw [if_pos hcond, if_neg hnosnap]

theorem smooth_fac_nonneg (s : ℚ) (hs : 1 ≤ s) : 0 ≤ 1 - 1 / s := by
  have hspos : (0 : ℚ) < s := lt_of_lt_of_le one_pos hs
  have : 1 / s ≤ 1 := by
    rw [div_le_one hspos]
    exact hs
  linarith

theorem smooth_fac_lt_one (s : ℚ) (hs : 1 ≤ s) : 1 - 1 / s < 1 := by
  have hspos : (0 : ℚ) < s := lt_of_lt_of_le one_pos hs
  have : 0 < 1 / s := by positivity
  linarith

theorem smooth_gap_identity (s t x : ℚ) :
    t - (x + (t - x) / s) = (t - x) * (1 - 1 / s) := by
  ring

theorem zoomSmoothStep_gap_le (cfg : ContainedContextConfig)
    (m_pos mousePos : ImVec2) (st : ZoomState) (hs : 1 ≤ cfg.zoom_smoothness) :
    |(zoomSmoothStep cfg m_pos mousePos st).scaleTarget -
      (zoomSmoothStep cfg m_pos mousePos st).scale|
      ≤ |st.scaleTarget - st.scale| := by
  by_cases hcond : 0 < cfg.zoom_smoothness ∧
      15 / 1000 / cfg.zoom_smoothness ≤ |st.scaleTarget - st.scale|
  · by_cases hsnap : |st.scaleTarget -
        (st.scale + (st.scaleTarget - st.scale) / cfg.zoom_smoothness)|
      < 15 / 1000 / cfg.zoom_smoothness
    · rw [zoomSmoothStep_scaleTarget, zoomSmoothStep_snap cfg m_pos mousePos st hcond hsnap]
      simp [abs_nonneg]
    · rw [zoomSmoothStep_scaleTarget, zoomSmoothStep_step cfg m_pos mousePos st hcond hsnap,
        smooth_gap_identity, abs_mul,
        abs_of_nonneg (smooth_fac_nonneg cfg.zoom_smoothness hs)]
      exact mul_le_of_le_one_right (abs_nonneg _)
        (le_of_lt (smooth_fac_lt_one cfg.zoom_smoothness hs))
  · rw [zoomSmoothStep_not_fire cfg m_pos mousePos st hcond]

theorem smooth_conv_aux (cfg : ContainedContextConfig) (m_pos mousePos : ImVec2)
    (hs : 1 ≤ cfg.zoom_smoothness) :
    ∀ (k : Nat) (st : ZoomState),
      15 / 1000 / cfg.zoom_smoothness ≤ |st.scaleTarget - st.scale| →
      |st.scaleTarget - st.scale| * (1 - 1 / cfg.zoom_smoothness) ^ k
        < 15 / 1000 / cfg.zoom_smoothness →
      ∃ N, ((zoomSmoothStep cfg m_pos mousePos)^[N] st).scale = st.scaleTarget := by
  intro k
  induction k with
  | zero =>
    intro st h1 h2
    rw [pow_zero, mul_one] at h2
    linarith
  | succ k ih =>
    intro st h1 h2
    have hspos : (0 : ℚ) < cfg.zoom_smoothness := lt_of_lt_of_le one_pos hs
    have hcond : 0 < cfg.zoom_smoothness ∧
        15 / 1000 / cfg.zoom_smoothness ≤ |st.scaleTarget - st.scale| := ⟨hspos, h1⟩
    by_cases hsnap : |st.scaleTarget -
        (st.scale + (st.scaleTarget - st.scale) / cfg.zoom_smoothness)|
      < 15 / 1000 / cfg.zoom_smoothness
    · exact ⟨1, by
        rw [Function.iterate_one]
        exact zoomSmoothStep_snap cfg m_pos mousePos st hcond hsnap⟩
    · have htar := zoomSmoothStep_scaleTarget cfg m_pos mousePos st
      have hsc := zoomSmoothStep_step cfg m_pos mousePos st hcond hsnap
      have hgap' : |(zoomSmoothStep cfg m_pos mousePos st).scaleTarget -
            (zoomSmoothStep cfg m_pos mousePos st).scale|
          = |st.scaleTarget - st.scale| * (1 - 1 / cfg.zoom_smoothness) := by
        rw [htar, hsc, smooth_gap_identity, abs_mul,
          abs_of_nonneg (smooth_fac_nonneg cfg.zoom_smoothness hs)]
      have h1' : 15 / 1000 / cfg.zoom_smoothness ≤
          |(zoomSmoothStep cfg m_pos mousePos st).scaleTarget -
            (zoomSmoothStep cfg m_pos mousePos st).scale| := by
        rw [htar, hsc]
        exact not_lt.mp hsnap
      have h2' : |(zoomSmoothStep cfg m_pos mousePos st).scaleTarget -
            (zoomSmoothStep cfg m_pos mousePos st).scale|
            * (1 - 1 / cfg.zoom_smoothness) ^ k
          < 15 / 1000 / cfg.zoom_smoothness := by
        rw [hgap']
        calc |st.scaleTarget - st.scale| * (1 - 1 / cfg.zoom_smoothness)
              * (1 - 1 / cfg.zoom_smoothness) ^ k
            = |st.scaleTarget - st.scale| * (1 - 1 / cfg.zoom_smoothness) ^ (k + 1) := by
              ring
          _ < 15 / 1000 / cfg.zoom_smoothness := h2
      obtain ⟨N, hN⟩ := ih (zoomSmoothStep cfg m_pos mousePos st) h1' h2'
      refine ⟨N + 1, ?_⟩
      rw [Function.iterate_succ_apply]
      rw [hN, htar]

theorem smooth_converges (cfg : ContainedContextConfig) (m_pos mousePos : ImVec2)
    (hs : 1 ≤ cfg.zoom_smoothness) (st : ZoomState)
    (h : 15 / 1000 / cfg.zoom_smoothness ≤ |st.scaleTarget - st.scale|) :
    ∃ N, ((zoomSmoothStep cfg m_pos mousePos)^[N] st).scale = st.scaleTarget := by
  have hspos : (0 : ℚ) < cfg.zoom_smoothness := lt_of_lt_of_le one_pos hs
  have hthr : (0 : ℚ) < 15 / 1000 / cfg.zoom_smoothness := by positivity
  have hgappos : (0 : ℚ) < |st.scaleTarget - st.scale| := lt_of_lt_of_le hthr h
  obtain ⟨k, hk⟩ := exists_pow_lt_of_lt_one
    (div_pos hthr hgappos) (smooth_fac_lt_one cfg.zoom_smoothness hs)
  refine smooth_conv_aux cfg m_pos mousePos hs k st h ?_
  rw [lt_div_iff hgappos] at hk
  calc |st.scaleTarget - st.scale| * (1 - 1 / cfg.zoom_smoothness) ^ k
      = (1 - 1 / cfg.zoom_smoothness) ^ k * |st.scaleTarget - st.scale| := by ring
    _ < 15 / 1000 / cfg.zoom_smoothness := hk

theorem end_quiescent (c : ContainedContext) (inp : EndInputs)
    (hw : inp.mouseWheel = 0) (hr : inp.isResetKeyPressed = false)
    (hd : inp.isMouseDragging = false) :
    (ContainedContext.end c inp).m_scale
        = (zoomSmoothStep c.m_config c.m_pos inp.mousePos
            ⟨c.m_scale, c.m_scaleTarget, c.m_scroll⟩).scale ∧
    (ContainedContext.end c inp).m_scaleTarget
        = (zoomSmoothStep c.m_config c.m_pos inp.mousePos
            ⟨c.m_scale, c.m_scaleTarget, c.m_scroll⟩).scaleTarget ∧
    (ContainedContext.end c inp).m_scroll
        = (zoomSmoothStep c.m_config c.m_pos inp.mousePos
            ⟨c.m_scale, c.m_scaleTarget, c.m_scroll⟩).scroll := by
  refine ⟨?_, ?_, ?_⟩ <;>
    simp [ContainedContext.end, endZoomState, zoomResetStep, dragScrollStep, hw, hr, hd]

theorem end_iter_invariants (c : ContainedContext) (inp : EndInputs) (n : Nat) :
    ((fun x => ContainedContext.end x inp)^[n] c).m_config = c.m_config ∧
    ((fun x => ContainedContext.end x inp)^[n] c).m_pos = c.m_pos := by
  induction n with
  | zero => exact ⟨rfl, rfl⟩
  | succ n ih =>
    rw [Function.iterate_succ_apply']
    exact ⟨ih.1, ih.2⟩

theorem end_iter_quiescent (c : ContainedContext) (inp : EndInputs)
    (hw : inp.mouseWheel = 0) (hr : inp.isResetKeyPressed = false)
    (hd : inp.isMouseDragging = false) (n : Nat) :
    (⟨((fun x => ContainedContext.end x inp)^[n] c).m_scale,
      ((fun x => ContainedContext.end x inp)^[n] c).m_scaleTarget,
      ((fun x => ContainedContext.end x inp)^[n] c).m_scroll⟩ : ZoomState)
      = (zoomSmoothStep c.m_config c.m_pos inp.mousePos)^[n]
          ⟨c.m_scale, c.m_scaleTarget, c.m_scroll⟩ := by
  induction n with
  | zero => rfl
  | succ n ih =>
    rw [Function.iterate_succ_apply', Function.iterate_succ_apply']
    have hinv := end_iter_invariants c inp n
    have hq := end_quiescent ((fun x => ContainedContext.end x inp)^[n] c) inp hw hr hd
    rw [hinv.1, hinv.2] at hq
    rw [hq.1, hq.2.1, hq.2.2, ← ih]

/-- C7 (amended): for smoothness at least 1, under repeated `end()` calls
with no further zoom input the gap `|scaleTarget - scale|` never increases;
if the initial gap is at least the firing threshold `0.015 / smoothness`,
`scale()` reaches `scaleTarget` exactly within a bounded number of frames;
if the initial gap is below the threshold, the smoothing branch never fires
and `scale()` never changes. -/
theorem claimC7 (cfg : ContainedContextConfig) (hs : 1 ≤ cfg.zoom_smoothness)
    (c : ContainedContext) (hcfg : c.m_config = cfg) (inp : EndInputs)
    (hw : inp.mouseWheel = 0) (hr : inp.isResetKeyPressed = false)
    (hd : inp.isMouseDragging = false) :
    (∀ n : Nat,
      |((fun x => ContainedContext.end x inp)^[n + 1] c).m_scaleTarget -
        ((fun x => ContainedContext.end x inp)^[n + 1] c).m_scale| ≤
      |((fun x => ContainedContext.end x inp)^[n] c).m_scaleTarget -
        ((fun x => ContainedContext.end x inp)^[n] c).m_scale|) ∧
    (15 / 1000 / cfg.zoom_smoothness ≤ |c.m_scaleTarget - c.m_scale| →
      ∃ N, ((fun x => ContainedContext.end x inp)^[N] c).m_scale = c.m_scaleTarget) ∧
    (|c.m_scaleTarget - c.m_scale| < 15 / 1000 / cfg.zoom_smoothness →
      ∀ n, ((fun x => ContainedContext.end x inp)^[n] c).m_scale = c.m_scale) := by
  subst hcfg
  have hsc : ∀ n, ((fun x => ContainedContext.end x inp)^[n] c).m_scale
      = ((zoomSmoothStep c.m_config c.m_pos inp.mousePos)^[n]
          ⟨c.m_scale, c.m_scaleTarget, c.m_scroll⟩).scale :=
    fun n => congrArg ZoomState.scale (end_iter_quiescent c inp hw hr hd n)
  have htg : ∀ n, ((fun x => ContainedContext.end x inp)^[n] c).m_scaleTarget
      = ((zoomSmoothStep c.m_config c.m_pos inp.mousePos)^[n]
          ⟨c.m_scale, c.m_scaleTarget, c.m_scroll⟩).scaleTarget :=
    fun n => congrArg ZoomState.scaleTarget (end_iter_quiescent c inp hw hr hd n)
  refine ⟨?_, ?_, ?_⟩
  · intro n
    rw [hsc n, hsc (n + 1), htg n, htg (n + 1), Function.iterate_succ_apply']
    exact zoomSmoothStep_gap_le _ _ _ _ hs
  · intro h
    obtain ⟨N, hN⟩ := smooth_converges c.m_config c.m_pos inp.mousePos hs
      ⟨c.m_scale, c.m_scaleTarget, c.m_scroll⟩ h
    exact ⟨N, by rw [hsc N]; exact hN⟩
  · intro h n
    have hfix : zoomSmoothStep c.m_config c.m_pos inp.mousePos
        ⟨c.m_scale, c.m_scaleTarget, c.m_scroll⟩
        = ⟨c.m_scale, c.m_scaleTarget, c.m_scroll⟩ :=
      zoomSmoothStep_not_fire _ _ _ _ (by
        rintro ⟨_, hge⟩
        exact absurd hge (not_le.mpr h))
    rw [hsc n, Function.iterate_fixed hfix n]

/-- A configuration with smoothness strictly between 0 and 1/2. -/
def cexCfg : ContainedContextConfig := { zoom_smoothness := 1 / 4 }

/-- A session at minimum zoom with the target at maximum zoom. -/
def cexSession : ContainedContext :=
  { sampleSession with m_config := cexCfg, m_scale := 3 / 10, m_scaleTarget := 2 }

/-- Counterexample to C7 as stated: with `zoom_smoothness = 1/4 > 0` and
scale and target inside `[zoom_min, zoom_max]`, one quiescent `end()` call
strictly increases the gap `|scaleTarget - scale|` (the smoothing step
overshoots), so the gap does not monotonically approach zero and scale never
converges. -/
theorem claimC7_counterexample :
    0 < cexCfg.zoom_smoothness ∧
    (cexCfg.zoom_min ≤ cexSession.m_scale ∧ cexSession.m_scale ≤ cexCfg.zoom_max) ∧
    (cexCfg.zoom_min ≤ cexSession.m_scaleTarget ∧
      cexSession.m_scaleTarget ≤ cexCfg.zoom_max) ∧
    |cexSession.m_scaleTarget - cexSession.m_scale| <
      |(ContainedContext.end cexSession quiescentInput).m_scaleTarget -
        (ContainedContext.end cexSession quiescentInput).m_scale| := by
  have h1 : |(17 : ℚ) / 10| = 17 / 10 := abs_of_nonneg (by norm_num)
  have h2 : |(2 : ℚ) - 71 / 10| = 51 / 10 := by
    rw [abs_of_nonpos (by norm_num)]
    norm_num
  have h3 : |(51 : ℚ) / 10| = 51 / 10 := abs_of_nonneg (by norm_num)
  refine ⟨by norm_num [cexCfg], by norm_num [cexCfg, cexSession, sampleSession],
    by norm_num [cexCfg, cexSession, sampleSession], ?_⟩
  norm_num [ContainedContext.end, endZoomState, zoomWheelStep, zoomSmoothStep,
    zoomResetStep, dragScrollStep, quiescentInput, cexCfg, cexSession, sampleSession,
    h1, h2, h3]

/-- A session converging from scale 1 toward target 2. -/
def convSession : ContainedContext := { sampleSession with m_scaleTarget := 2 }

/-- Witness for the amended C7 at the default configuration. -/
theorem claimC7_witness :
    (1 : ℚ) ≤ sampleCfg.zoom_smoothness ∧
    15 / 1000 / sampleCfg.zoom_smoothness ≤
      |convSession.m_scaleTarget - convSession.m_scale| ∧
    ∃ N, ((fun x => ContainedContext.end x quiescentInput)^[N] convSession).m_scale
      = convSession.m_scaleTarget := by
  have h := claimC7 sampleCfg (by norm_num [sampleCfg]) convSession rfl
    quiescentInput rfl rfl rfl
  refine ⟨by norm_num [sampleCfg], by norm_num [sampleCfg, convSession, sampleSession], ?_⟩
  exact h.2.1 (by norm_num [sampleCfg, convSession, sampleSession])

/-- Witness for C4 at a concrete merge with scale 2 and origin (1,2). -/
theorem claimC4_witness :
    (0 : ℚ) < 2 ∧
    sampleMergedCapable.VtxBuffer.drop sampleDst.VtxBuffer.length =
      sampleSrc.VtxBuffer.map
        (fun v => { pos := v.pos * (2 : ℚ) + ⟨1, 2⟩, uv := v.uv, col := v.col }) :=
  ⟨by norm_num,
    claimC4 true 2 sampleDst sampleSrc sampleMergedCapable ⟨1, 2⟩ 2 (by norm_num)
      (by decide) (by decide) sampleMerge_eval⟩
